import Mathlib

/-!
Verification of the VMEC-to-Boozer coordinate transform implemented by the
class `VMEC2Booz` in `src/pystell/pybooz.py`.

The Python code works on numpy arrays of IEEE doubles.  The shallow embedding
below models machine reals by exact rationals (`ℚ`) or, where trigonometric
identities are at stake, by real numbers (`ℝ`); grid-indexed arrays are
modelled pointwise as functions from the grid index, and amplitude tables as
functions of (surface index, mode index).  One dedicated model (`FVal`)
tracks IEEE non-finite values (infinities and NaN) for the degenerate
Jacobian analysis.
-/

namespace Pybooz

/-! ### Mode enumeration (`setup_xmnb`, pybooz.py lines 317-336) -/

/-- Total number of Boozer modes,
`self.mnboz = nboz + 1 + (mboz - 1) * (1 + (2 * nboz))` (pybooz.py line 99). -/
def mnboz (mboz nboz : ℕ) : ℕ := nboz + 1 + (mboz - 1) * (1 + 2 * nboz)

/-- The list of integers `lo, lo + 1, ..., lo + len - 1`, the model of the
Python iteration `for n in range(n1, n2 + 1)`. -/
def intRange (lo : ℤ) (len : ℕ) : List ℤ :=
  (List.range len).map (fun (i : ℕ) => lo + (i : ℤ))

/-- The inner loop of `setup_xmnb` (pybooz.py lines 327-336) for one value of
`m`: `n` runs from `0` (when `m = 0`) or `-nboz` (otherwise) up to `nboz`, and
the pair `(m, n * nfp)` is appended to the parallel arrays `(xmb, xnb)`. -/
def xmnbBlock (nboz : ℕ) (nfp : ℤ) (m : ℕ) : List (ℤ × ℤ) :=
  (if m = 0 then intRange 0 (nboz + 1) else intRange (-(nboz : ℤ)) (2 * nboz + 1)).map
    (fun n => ((m : ℤ), n * nfp))

/-- The full double-loop enumeration of `setup_xmnb` (pybooz.py lines
324-336) before the capacity guard: `m` runs over `range(self.mboz)`,
appending `xmnbBlock` for each `m` in order. -/
def xmnbEnum (mboz nboz : ℕ) (nfp : ℤ) : List (ℤ × ℤ) :=
  match mboz with
  | 0 => []
  | M + 1 => xmnbEnum M nboz nfp ++ xmnbBlock nboz nfp M

/-- Embedding of `setup_xmnb` (pybooz.py lines 317-336).  The guard at line
331 stops appending (and leaves the routine) as soon as `mnboz` entries have
been produced, which is exactly a truncation of the full enumeration to the
first `mnboz` entries. -/
def setup_xmnb (mboz nboz : ℕ) (nfp : ℤ) : List (ℤ × ℤ) :=
  (xmnbEnum mboz nboz nfp).take (mnboz mboz nboz)

theorem intRange_length (lo : ℤ) (len : ℕ) : (intRange lo len).length = len := by
  rw [intRange, List.length_map]
  exact List.length_range len

theorem xmnbBlock_length (nboz : ℕ) (nfp : ℤ) (m : ℕ) :
    (xmnbBlock nboz nfp m).length = if m = 0 then nboz + 1 else 2 * nboz + 1 := by
  rw [xmnbBlock]
  split <;> rw [List.length_map, intRange_length]

theorem mnboz_succ (M nboz : ℕ) (h : 1 ≤ M) :
    mnboz (M + 1) nboz = mnboz M nboz + (1 + 2 * nboz) := by
  obtain ⟨K, rfl⟩ := Nat.exists_eq_add_of_le h
  unfold mnboz
  have h1 : 1 + K + 1 - 1 = K + 1 := by omega
  have h2 : 1 + K - 1 = K := by omega
  rw [h1, h2]
  ring

theorem xmnbEnum_length (mboz nboz : ℕ) (nfp : ℤ) (hm : 1 ≤ mboz) :
    (xmnbEnum mboz nboz nfp).length = mnboz mboz nboz := by
  induction mboz with
  | zero => omega
  | succ M ih =>
    rw [xmnbEnum, List.length_append, xmnbBlock_length]
    rcases Nat.eq_zero_or_pos M with h0 | hpos
    · subst h0
      simp [xmnbEnum, mnboz]
    · have hM : M ≠ 0 := Nat.pos_iff_ne_zero.mp hpos
      rw [ih hpos, if_neg hM, mnboz_succ M nboz hpos]
      omega

theorem setup_xmnb_eq_enum (mboz nboz : ℕ) (nfp : ℤ) (hm : 1 ≤ mboz) :
    setup_xmnb mboz nboz nfp = xmnbEnum mboz nboz nfp := by
  rw [setup_xmnb, ← xmnbEnum_length mboz nboz nfp hm, List.take_length]

theorem mem_intRange {lo : ℤ} {len : ℕ} {n : ℤ} (h : n ∈ intRange lo len) :
    lo ≤ n ∧ n < lo + len := by
  rw [intRange, List.mem_map] at h
  obtain ⟨i, hi, rfl⟩ := h
  rw [List.mem_range] at hi
  omega

theorem mem_xmnbBlock_fst {nboz : ℕ} {nfp : ℤ} {m : ℕ} {p : ℤ × ℤ}
    (h : p ∈ xmnbBlock nboz nfp m) : p.1 = (m : ℤ) := by
  rw [xmnbBlock, List.mem_map] at h
  obtain ⟨n, _, rfl⟩ := h
  rfl

theorem mem_xmnbEnum_fst_lt {mboz nboz : ℕ} {nfp : ℤ} {p : ℤ × ℤ}
    (h : p ∈ xmnbEnum mboz nboz nfp) : p.1 < (mboz : ℤ) := by
  induction mboz with
  | zero => simp [xmnbEnum] at h
  | succ M ih =>
    rw [xmnbEnum, List.mem_append] at h
    rcases h with h | h
    · have := ih h
      push_cast
      omega
    · rw [mem_xmnbBlock_fst h]
      push_cast
      omega

theorem intRange_nodup (lo : ℤ) (len : ℕ) : (intRange lo len).Nodup := by
  rw [intRange]
  exact (List.nodup_range len).map (fun a b hab => by omega)

theorem xmnbBlock_nodup {nfp : ℤ} (hnfp : nfp ≠ 0) (nboz m : ℕ) :
    (xmnbBlock nboz nfp m).Nodup := by
  rw [xmnbBlock]
  refine List.Nodup.map ?_ (by split <;> exact intRange_nodup _ _)
  intro a b hab
  have h2 := congrArg Prod.snd hab
  simpa [mul_left_injective₀ hnfp] using mul_right_cancel₀ hnfp h2

theorem xmnbEnum_nodup {nfp : ℤ} (hnfp : nfp ≠ 0) (mboz nboz : ℕ) :
    (xmnbEnum mboz nboz nfp).Nodup := by
  induction mboz with
  | zero => exact List.nodup_nil
  | succ M ih =>
    rw [xmnbEnum]
    refine ih.append (xmnbBlock_nodup hnfp nboz M) ?_
    intro p hp hp2
    have h1 := mem_xmnbEnum_fst_lt hp
    have h2 := mem_xmnbBlock_fst hp2
    omega

theorem pairwise_fst_of_mem_eq {l : List (ℤ × ℤ)} {c : ℤ}
    (hc : ∀ x ∈ l, x.1 = c) : l.Pairwise (fun p q => p.1 ≤ q.1) := by
  induction l with
  | nil => exact List.Pairwise.nil
  | cons a t ih =>
    constructor
    · intro b hb
      rw [hc a (List.mem_cons_self a t), hc b (List.mem_cons_of_mem a hb)]
    · exact ih (fun x hx => hc x (List.mem_cons_of_mem a hx))

theorem xmnbEnum_fst_mono (mboz nboz : ℕ) (nfp : ℤ) :
    (xmnbEnum mboz nboz nfp).Pairwise (fun p q => p.1 ≤ q.1) := by
  induction mboz with
  | zero => exact List.Pairwise.nil
  | succ M ih =>
    rw [xmnbEnum, List.pairwise_append]
    refine ⟨ih, pairwise_fst_of_mem_eq (fun x hx => mem_xmnbBlock_fst hx), ?_⟩
    intro p hp q hq
    have h1 := mem_xmnbEnum_fst_lt hp
    have h2 := mem_xmnbBlock_fst hq
    omega

theorem mem_xmnbEnum_m0 {mboz nboz : ℕ} {nfp : ℤ} (hnfp : 1 ≤ nfp) {p : ℤ × ℤ}
    (h : p ∈ xmnbEnum mboz nboz nfp) (h0 : p.1 = 0) : 0 ≤ p.2 := by
  induction mboz with
  | zero => simp [xmnbEnum] at h
  | succ M ih =>
    rw [xmnbEnum, List.mem_append] at h
    rcases h with h | h
    · exact ih h
    · rw [xmnbBlock] at h
      rcases Nat.eq_zero_or_pos M with hM | hM
      · subst hM
        simp only [if_pos rfl, List.mem_map] at h
        obtain ⟨n, hn, rfl⟩ := h
        have := mem_intRange hn
        have : 0 ≤ n := this.1
        positivity
      · exfalso
        rw [List.mem_map] at h
        obtain ⟨n, _, rfl⟩ := h
        simp at h0
        omega

/-- C1, as literally stated, fails without a restriction on `nfp`: with
`nfp = 0` the stored pairs `(m, n * nfp)` collapse and are not unique
(`setup_xmnb 1 1 0 = [(0, 0), (0, 0)]`), and with `nfp = -1` the `m = 0`
block stores a negative toroidal entry `(0, -1)`. -/
theorem setup_xmnb_claim_counterexample :
    ¬ (setup_xmnb 1 1 0).Nodup ∧ ((0, -1) : ℤ × ℤ) ∈ setup_xmnb 1 1 (-1) := by
  constructor
  · decide
  · decide

/-- C1 (amended: the field-period count `nfp` is at least 1): `setup_xmnb`
fills `xmb`/`xnb` with exactly `mnboz = nboz + 1 + (mboz - 1) * (1 + 2 * nboz)`
pairs `(m, n * nfp)`, iterating `m` upward from 0 with `n` over `[0, nboz]`
when `m = 0` and over `[-nboz, nboz]` otherwise, so that `m` is monotonically
nondecreasing across the linear index, every pair is unique, and for `m = 0`
all stored toroidal entries are nonnegative. -/
theorem setup_xmnb_spec (mboz nboz : ℕ) (nfp : ℤ) (hm : 1 ≤ mboz) (hnfp : 1 ≤ nfp) :
    (setup_xmnb mboz nboz nfp).length = mnboz mboz nboz ∧
    (setup_xmnb mboz nboz nfp).Pairwise (fun p q => p.1 ≤ q.1) ∧
    (setup_xmnb mboz nboz nfp).Nodup ∧
    ∀ p ∈ setup_xmnb mboz nboz nfp, p.1 = 0 → 0 ≤ p.2 := by
  rw [setup_xmnb_eq_enum mboz nboz nfp hm]
  exact ⟨xmnbEnum_length mboz nboz nfp hm, xmnbEnum_fst_mono mboz nboz nfp,
    xmnbEnum_nodup (by omega) mboz nboz,
    fun p hp h0 => mem_xmnbEnum_m0 hnfp hp h0⟩

/-- Concrete instantiation of `setup_xmnb_spec` at `mboz = 2`, `nboz = 1`,
`nfp = 3`. -/
theorem setup_xmnb_spec_witness :
    ((1 ≤ 2) ∧ ((1 : ℤ) ≤ 3)) ∧
    ((setup_xmnb 2 1 3).length = mnboz 2 1 ∧
      (setup_xmnb 2 1 3).Pairwise (fun p q => p.1 ≤ q.1) ∧
      (setup_xmnb 2 1 3).Nodup ∧
      ∀ p ∈ setup_xmnb 2 1 3, p.1 = 0 → 0 ≤ p.2) :=
  ⟨⟨by decide, by decide⟩, setup_xmnb_spec 2 1 3 (by decide) (by decide)⟩

/-! ### Trigonometric tables (`trigfunc`, pybooz.py lines 338-386) -/

/-- One step of the angle-addition recurrence of `trigfunc` (pybooz.py lines
372-374 and 382-384): from the pair of values at harmonic `m - 1` and the
first-harmonic pair `(c, s)`, produce the pair at harmonic `m`. -/
def trigStep {R : Type} [CommRing R] (c s : R) (p : R × R) : R × R :=
  (p.1 * c - p.2 * s, p.2 * c + p.1 * s)

/-- The pair `(cosm[k, m], sinm[k, m])` built by `trigfunc` at one grid point
`k` whose first harmonic has cosine `c` and sine `s` (pybooz.py lines
367-374): column 0 is `(1, 0)`, column 1 is `(c, s)`, and each higher column
follows the angle-addition recurrence from the previous one.  The same
recurrence also builds the toroidal tables (lines 376-384, with
`c = cos(zt * nfp)`, `s = sin(zt * nfp)`) and the scalar four-point tables of
`modbooz` (lines 732-762). -/
def trigCol {R : Type} [CommRing R] (c s : R) : ℕ → R × R
  | 0 => (1, 0)
  | 1 => (c, s)
  | m + 2 => trigStep c s (trigCol c s (m + 1))

theorem trigCol_eq (th : ℝ) :
    ∀ m : ℕ, trigCol (Real.cos th) (Real.sin th) m =
      (Real.cos (m * th), Real.sin (m * th))
  | 0 => by simp [trigCol]
  | 1 => by simp [trigCol]
  | m + 2 => by
    have ih := trigCol_eq th (m + 1)
    have harg : ((m + 2 : ℕ) : ℝ) * th = ((m + 1 : ℕ) : ℝ) * th + th := by
      push_cast
      ring
    rw [trigCol, ih, trigStep, harg, Real.cos_add, Real.sin_add]

/-- C3: over exact real arithmetic, the poloidal trigonometric table built by
`trigfunc` satisfies `cosm[k, m] = cos(m * th[k])` and
`sinm[k, m] = sin(m * th[k])` for every grid point and every column `m`
(in particular for all `m ≤ mpol`, the columns the table actually holds):
the base cases `m = 0` and `m = 1` together with the angle-addition
recurrence reproduce direct trigonometric evaluation of every harmonic. -/
theorem trigfunc_poloidal_exact (th : ℝ) (m : ℕ) :
    (trigCol (Real.cos th) (Real.sin th) m).1 = Real.cos (m * th) ∧
    (trigCol (Real.cos th) (Real.sin th) m).2 = Real.sin (m * th) := by
  rw [trigCol_eq th m]
  exact ⟨rfl, rfl⟩

/-- The sequence of toroidal column indices written into `cosn`/`sinn` by
`trigfunc` (pybooz.py lines 376-384): column 0 is always assigned
(lines 376-377), column 1 only under the guard `if ntor > 1`
(lines 378-380), and columns `2 .. ntor` by the loop `for n in
range(2, ntor + 1)` (lines 382-384).  The tables are allocated with
`np.empty` (lines 364-365), so a column outside this sequence is
uninitialized memory. -/
def toroidalWrites (ntor : ℕ) : List ℕ :=
  [0] ++ (if 1 < ntor then [1] else []) ++ (List.range (ntor - 1)).map (fun i => i + 2)

/-- C8: `trigfunc` assigns the toroidal first-harmonic columns `cosn[:, 1]`
and `sinn[:, 1]` only when `ntor > 1`; for `ntor > 1` every toroidal column
`0 .. ntor` is initialized before return, while for `ntor = 1` column 1 is
never assigned and keeps its uninitialized `np.empty` contents. -/
theorem trigfunc_toroidal_writes (ntor : ℕ) :
    (1 < ntor → ∀ n ≤ ntor, n ∈ toroidalWrites ntor) ∧
    (ntor = 1 → 1 ∉ toroidalWrites 1) := by
  constructor
  · intro h1 n hn
    rw [toroidalWrites]
    rcases n with _ | n
    · simp
    · rcases n with _ | n
      · simp [h1]
      · simp only [List.append_assoc, List.mem_append, List.mem_map,
          List.mem_range, List.mem_singleton]
        right
        right
        exact ⟨n, by omega, by omega⟩
  · intro _
    decide

/-- Concrete instantiation of `trigfunc_toroidal_writes`: with `ntor = 3`
column 2 is initialized, and with `ntor = 1` column 1 is not. -/
theorem trigfunc_toroidal_writes_witness :
    (2 ∈ toroidalWrites 3) ∧ (1 ∉ toroidalWrites 1) :=
  ⟨(trigfunc_toroidal_writes 3).1 (by decide) 2 (by decide),
    (trigfunc_toroidal_writes 1).2 rfl⟩

/-! ### Straight-field-line solver (`harfun`, pybooz.py lines 554-602) -/

/-- Result record of `harfun`: the scalar Jacobian factor and, pointwise over
the `nunv` grid points, the Boozer poloidal correction `uboz`, the toroidal
correction `vboz`, and the pointwise Jacobian `xjac` (the tuple returned at
line 602). -/
structure HarfunResult where
  jacfac : ℚ
  uboz : ℕ → ℚ
  vboz : ℕ → ℚ
  xjac : ℕ → ℚ

/-- Embedding of `harfun` (pybooz.py lines 554-602) over exact rationals.
Arrays over the grid are functions of the grid index `k`.  The code also
computes `gpsi1` and `hiota1` (lines 587-588), which are never used and are
omitted here; `bsupu`/`bsupv` at lines 578-579 are immediately overwritten
at lines 595-596. -/
def harfun (gpsi ipsi hiota : ℕ → ℚ) (js : ℕ) (xlt xlz xl wt wz w : ℕ → ℚ) :
    HarfunResult :=
  let jacfac := gpsi js + hiota js * ipsi js
  let dem := 1 / jacfac
  let ipsi1 := ipsi js * dem
  let vboz := fun k => dem * w k - ipsi1 * xl k
  let uboz := fun k => xl k + hiota js * vboz k
  let psubv := fun k => dem * wz k - ipsi1 * xlz k
  let psubu := fun k => dem * wt k - ipsi1 * xlt k
  let bsupv := fun k => 1 + xlt k
  let bsupu := fun k => hiota js - xlz k
  { jacfac := jacfac
    uboz := uboz
    vboz := vboz
    xjac := fun k => bsupv k * (1 + psubv k) + bsupu k * psubu k }

/-- C2: for every input with nonzero Jacobian factor, `harfun` returns
`jacfac = gpsi[js] + hiota[js] * ipsi[js]`,
`vboz = w / jacfac - (ipsi[js] / jacfac) * xl`,
`uboz = xl + hiota[js] * vboz`, and pointwise over the grid
`xjac = (1 + xlt) * (1 + psubv) + (hiota[js] - xlz) * psubu` with
`psubv = wz / jacfac - (ipsi[js] / jacfac) * xlz` and
`psubu = wt / jacfac - (ipsi[js] / jacfac) * xlt`. -/
theorem harfun_formulas (gpsi ipsi hiota : ℕ → ℚ) (js : ℕ)
    (xlt xlz xl wt wz w : ℕ → ℚ)
    (hjac : gpsi js + hiota js * ipsi js ≠ 0) (k : ℕ) :
    (harfun gpsi ipsi hiota js xlt xlz xl wt wz w).jacfac =
      gpsi js + hiota js * ipsi js ∧
    (harfun gpsi ipsi hiota js xlt xlz xl wt wz w).vboz k =
      w k / (gpsi js + hiota js * ipsi js) -
        (ipsi js / (gpsi js + hiota js * ipsi js)) * xl k ∧
    (harfun gpsi ipsi hiota js xlt xlz xl wt wz w).uboz k =
      xl k + hiota js * (harfun gpsi ipsi hiota js xlt xlz xl wt wz w).vboz k ∧
    (harfun gpsi ipsi hiota js xlt xlz xl wt wz w).xjac k =
      (1 + xlt k) *
          (1 + (wz k / (gpsi js + hiota js * ipsi js) -
            (ipsi js / (gpsi js + hiota js * ipsi js)) * xlz k)) +
        (hiota js - xlz k) *
          (wt k / (gpsi js + hiota js * ipsi js) -
            (ipsi js / (gpsi js + hiota js * ipsi js)) * xlt k) := by
  refine ⟨rfl, ?_, ?_, ?_⟩ <;>
    simp only [harfun] <;> ring

/-- Concrete instantiation of `harfun_formulas` with
`gpsi = 2, ipsi = 1, hiota = 3` (so `jacfac = 5 ≠ 0`) and all grid fields
constantly 1, at grid point 0. -/
theorem harfun_formulas_witness :
    ((2 : ℚ) + 3 * 1 ≠ 0) ∧
    ((harfun (fun _ => 2) (fun _ => 1) (fun _ => 3) 0 (fun _ => 1) (fun _ => 1)
        (fun _ => 1) (fun _ => 1) (fun _ => 1) (fun _ => 1)).jacfac = 2 + 3 * 1 ∧
      (harfun (fun _ => 2) (fun _ => 1) (fun _ => 3) 0 (fun _ => 1) (fun _ => 1)
        (fun _ => 1) (fun _ => 1) (fun _ => 1) (fun _ => 1)).vboz 0 =
        1 / (2 + 3 * 1) - (1 / (2 + 3 * 1)) * 1 ∧
      (harfun (fun _ => 2) (fun _ => 1) (fun _ => 3) 0 (fun _ => 1) (fun _ => 1)
        (fun _ => 1) (fun _ => 1) (fun _ => 1) (fun _ => 1)).uboz 0 =
        1 + 3 * (harfun (fun _ => 2) (fun _ => 1) (fun _ => 3) 0 (fun _ => 1)
          (fun _ => 1) (fun _ => 1) (fun _ => 1) (fun _ => 1) (fun _ => 1)).vboz 0 ∧
      (harfun (fun _ => 2) (fun _ => 1) (fun _ => 3) 0 (fun _ => 1) (fun _ => 1)
        (fun _ => 1) (fun _ => 1) (fun _ => 1) (fun _ => 1)).xjac 0 =
        (1 + 1) * (1 + (1 / (2 + 3 * 1) - (1 / (2 + 3 * 1)) * 1)) +
          (3 - 1) * (1 / (2 + 3 * 1) - (1 / (2 + 3 * 1)) * 1)) :=
  ⟨by norm_num,
    harfun_formulas (fun _ => 2) (fun _ => 1) (fun _ => 3) 0 (fun _ => 1)
      (fun _ => 1) (fun _ => 1) (fun _ => 1) (fun _ => 1) (fun _ => 1)
      (by norm_num) 0⟩

/-! ### IEEE non-finite tracking for the degenerate Jacobian case (C7)

The Python code runs on numpy doubles: `1.0 / jacfac` with `jacfac == 0.0`
yields an infinity (with a runtime warning, not an exception), and further
arithmetic propagates infinities and NaNs.  `FVal` models a double as either
a finite exact rational, a signed infinity, or NaN, with the IEEE rules for
arithmetic involving non-finite operands (which involve no rounding).  The
model's single unsigned zero is treated as `+0.0` when divided by, which only
affects the sign of the resulting infinity, not its non-finiteness. -/

inductive FVal where
  | fin (q : ℚ)
  | inf (pos : Bool)
  | nan
deriving DecidableEq

namespace FVal

/-- Whether a value is finite (an actual number, neither infinite nor NaN). -/
def isFin : FVal → Bool
  | fin _ => true
  | _ => false

/-- IEEE negation. -/
def neg : FVal → FVal
  | fin q => fin (-q)
  | inf p => inf (!p)
  | nan => nan

/-- IEEE addition: a NaN operand gives NaN, an infinity absorbs finite
addends, and opposite infinities give NaN. -/
def add : FVal → FVal → FVal
  | nan, _ => nan
  | _, nan => nan
  | fin a, fin b => fin (a + b)
  | fin _, inf p => inf p
  | inf p, fin _ => inf p
  | inf p, inf q => if p = q then inf p else nan

/-- IEEE subtraction. -/
def sub (a b : FVal) : FVal := add a (neg b)

/-- IEEE multiplication: a NaN operand gives NaN, zero times infinity gives
NaN, and otherwise infinities absorb with the sign rule. -/
def mul : FVal → FVal → FVal
  | nan, _ => nan
  | _, nan => nan
  | fin a, fin b => fin (a * b)
  | fin a, inf p => if a = 0 then nan else inf ((decide (0 < a)) == p)
  | inf p, fin a => if a = 0 then nan else inf ((decide (0 < a)) == p)
  | inf p, inf q => inf (p == q)

/-- IEEE division: a nonzero finite value divided by (unsigned) zero gives a
signed infinity, `0 / 0` gives NaN, a finite value divided by an infinity
gives zero. -/
def div : FVal → FVal → FVal
  | nan, _ => nan
  | _, nan => nan
  | fin a, fin b =>
      if b = 0 then (if a = 0 then nan else inf (decide (0 < a))) else fin (a / b)
  | fin _, inf _ => fin 0
  | inf p, fin b => if b = 0 then inf p else inf ((decide (0 < b)) == p)
  | inf _, inf _ => nan

theorem add_not_fin_left {a b : FVal} (h : a.isFin = false) :
    (add a b).isFin = false := by
  cases a with
  | fin q => simp [isFin] at h
  | inf p =>
    cases b with
    | fin q => rfl
    | inf q =>
      simp only [add]
      split <;> rfl
    | nan => rfl
  | nan => cases b <;> rfl

theorem add_not_fin_right {a b : FVal} (h : b.isFin = false) :
    (add a b).isFin = false := by
  cases b with
  | fin q => simp [isFin] at h
  | inf p =>
    cases a with
    | fin q => rfl
    | inf q =>
      simp only [add]
      split <;> rfl
    | nan => rfl
  | nan => cases a <;> rfl

theorem mul_not_fin_left {a b : FVal} (h : a.isFin = false) :
    (mul a b).isFin = false := by
  cases a with
  | fin q => simp [isFin] at h
  | inf p =>
    cases b with
    | fin q =>
      simp only [mul]
      split <;> rfl
    | inf q => rfl
    | nan => rfl
  | nan => cases b <;> rfl

theorem mul_not_fin_right {a b : FVal} (h : b.isFin = false) :
    (mul a b).isFin = false := by
  cases b with
  | fin q => simp [isFin] at h
  | inf p =>
    cases a with
    | fin q =>
      simp only [mul]
      split <;> rfl
    | inf q => rfl
    | nan => rfl
  | nan => cases a <;> rfl

theorem isFin_neg (b : FVal) : (neg b).isFin = b.isFin := by
  cases b <;> rfl

theorem sub_not_fin_left {a b : FVal} (h : a.isFin = false) :
    (sub a b).isFin = false := add_not_fin_left h

theorem sub_not_fin_right {a b : FVal} (h : b.isFin = false) :
    (sub a b).isFin = false := add_not_fin_right (by rw [isFin_neg]; exact h)

end FVal

/-- Result record of `harfun` in the non-finite-tracking model, together with
the flag recording whether the `jacfac == 0` warning at lines 584-585 was
logged. -/
structure HarfunFRes where
  jacfac : FVal
  warn : Bool
  uboz : FVal
  vboz : FVal
  xjac : FVal

/-- Embedding of `harfun` (pybooz.py lines 554-602) over the IEEE model
`FVal`, at one grid point (the computation at lines 591-598 is pointwise over
the grid).  The function is total: when `jacfac` is zero the code only logs a
warning (lines 584-585) and proceeds with `dem = 1.0 / jacfac`, which is the
IEEE division modelled by `FVal.div`. -/
def harfunF (gpsi ipsi hiota xlt xlz xl wt wz w : FVal) : HarfunFRes :=
  let jacfac := FVal.add gpsi (FVal.mul hiota ipsi)
  let dem := FVal.div (FVal.fin 1) jacfac
  let ipsi1 := FVal.mul ipsi dem
  let vboz := FVal.sub (FVal.mul dem w) (FVal.mul ipsi1 xl)
  let uboz := FVal.add xl (FVal.mul hiota vboz)
  let psubv := FVal.sub (FVal.mul dem wz) (FVal.mul ipsi1 xlz)
  let psubu := FVal.sub (FVal.mul dem wt) (FVal.mul ipsi1 xlt)
  let bsupv := FVal.add (FVal.fin 1) xlt
  let bsupu := FVal.sub hiota xlz
  { jacfac := jacfac
    warn := decide (jacfac = FVal.fin 0)
    uboz := uboz
    vboz := vboz
    xjac := FVal.add (FVal.mul bsupv (FVal.add (FVal.fin 1) psubv))
      (FVal.mul bsupu psubu) }

/-- C7: when `jacfac = gpsi[js] + hiota[js] * ipsi[js]` evaluates to exactly
zero on finite inputs, `harfun` logs the warning and still returns normally
(the model `harfunF` is a total function and this theorem exhibits its
outputs), computing with the reciprocal of zero, so that every per-point
output of the surface (`vboz`, `uboz`, `xjac`) is non-finite. -/
theorem harfun_zero_jacfac (g i h0 lt lz l wt wz w : ℚ)
    (hz : g + h0 * i = 0) :
    (harfunF (FVal.fin g) (FVal.fin i) (FVal.fin h0) (FVal.fin lt)
        (FVal.fin lz) (FVal.fin l) (FVal.fin wt) (FVal.fin wz)
        (FVal.fin w)).warn = true ∧
    (harfunF (FVal.fin g) (FVal.fin i) (FVal.fin h0) (FVal.fin lt)
        (FVal.fin lz) (FVal.fin l) (FVal.fin wt) (FVal.fin wz)
        (FVal.fin w)).jacfac = FVal.fin 0 ∧
    (harfunF (FVal.fin g) (FVal.fin i) (FVal.fin h0) (FVal.fin lt)
        (FVal.fin lz) (FVal.fin l) (FVal.fin wt) (FVal.fin wz)
        (FVal.fin w)).vboz.isFin = false ∧
    (harfunF (FVal.fin g) (FVal.fin i) (FVal.fin h0) (FVal.fin lt)
        (FVal.fin lz) (FVal.fin l) (FVal.fin wt) (FVal.fin wz)
        (FVal.fin w)).uboz.isFin = false ∧
    (harfunF (FVal.fin g) (FVal.fin i) (FVal.fin h0) (FVal.fin lt)
        (FVal.fin lz) (FVal.fin l) (FVal.fin wt) (FVal.fin wz)
        (FVal.fin w)).xjac.isFin = false := by
  have hjac : FVal.add (FVal.fin g) (FVal.mul (FVal.fin h0) (FVal.fin i)) =
      FVal.fin 0 := by
    simp only [FVal.mul, FVal.add]
    exact congrArg FVal.fin hz
  have hdem : FVal.div (FVal.fin 1)
      (FVal.add (FVal.fin g) (FVal.mul (FVal.fin h0) (FVal.fin i))) =
      FVal.inf true := by
    rw [hjac]
    simp [FVal.div]
  have hdemnf : (FVal.div (FVal.fin 1)
      (FVal.add (FVal.fin g) (FVal.mul (FVal.fin h0) (FVal.fin i)))).isFin =
      false := by
    rw [hdem]
    rfl
  simp only [harfunF]
  refine ⟨by rw [hjac]; rfl, hjac, ?_, ?_, ?_⟩
  · exact FVal.sub_not_fin_left (FVal.mul_not_fin_left hdemnf)
  · exact FVal.add_not_fin_right (FVal.mul_not_fin_right
      (FVal.sub_not_fin_left (FVal.mul_not_fin_left hdemnf)))
  · exact FVal.add_not_fin_left (FVal.mul_not_fin_right
      (FVal.add_not_fin_right
        (FVal.sub_not_fin_left (FVal.mul_not_fin_left hdemnf))))

/-- Concrete instantiation of `harfun_zero_jacfac`: `gpsi = 3`, `hiota = 1`,
`ipsi = -3` gives `jacfac = 0`; the warning fires and the outputs are
non-finite. -/
theorem harfun_zero_jacfac_witness :
    ((3 : ℚ) + 1 * (-3) = 0) ∧
    ((harfunF (FVal.fin 3) (FVal.fin (-3)) (FVal.fin 1) (FVal.fin 1)
        (FVal.fin 1) (FVal.fin 1) (FVal.fin 1) (FVal.fin 1)
        (FVal.fin 1)).warn = true ∧
      (harfunF (FVal.fin 3) (FVal.fin (-3)) (FVal.fin 1) (FVal.fin 1)
        (FVal.fin 1) (FVal.fin 1) (FVal.fin 1) (FVal.fin 1)
        (FVal.fin 1)).jacfac = FVal.fin 0 ∧
      (harfunF (FVal.fin 3) (FVal.fin (-3)) (FVal.fin 1) (FVal.fin 1)
        (FVal.fin 1) (FVal.fin 1) (FVal.fin 1) (FVal.fin 1)
        (FVal.fin 1)).vboz.isFin = false ∧
      (harfunF (FVal.fin 3) (FVal.fin (-3)) (FVal.fin 1) (FVal.fin 1)
        (FVal.fin 1) (FVal.fin 1) (FVal.fin 1) (FVal.fin 1)
        (FVal.fin 1)).uboz.isFin = false ∧
      (harfunF (FVal.fin 3) (FVal.fin (-3)) (FVal.fin 1) (FVal.fin 1)
        (FVal.fin 1) (FVal.fin 1) (FVal.fin 1) (FVal.fin 1)
        (FVal.fin 1)).xjac.isFin = false) :=
  ⟨by norm_num, harfun_zero_jacfac 3 (-3) 1 1 1 1 1 1 1 (by norm_num)⟩

/-! ### Quadrature normalization and `boozerfun` (pybooz.py lines 153-161 and
636-701) -/

/-- Grid size `self.nu_boz = 2 * (2 * mboz + 1)` (pybooz.py line 153). -/
def nu_boz (mboz : ℕ) : ℕ := 2 * (2 * mboz + 1)

/-- Grid size `self.nv_boz = 2 * (2 * nboz + 1)` (pybooz.py line 154). -/
def nv_boz (nboz : ℕ) : ℕ := 2 * (2 * nboz + 1)

/-- Half count `self.nu2_b = self.nu_boz // 2 + 1` (pybooz.py line 155). -/
def nu2_b (mboz : ℕ) : ℕ := nu_boz mboz / 2 + 1

/-- Scale factor `self.fac = 2.0 / ((self.nu2_b - 1) * self.nv_boz)` (pybooz.py line 158). -/
def fac (mboz nboz : ℕ) : ℚ := 2 / (((nu2_b mboz : ℚ) - 1) * (nv_boz nboz : ℚ))

/-- The normalization vector `self.scl` (pybooz.py lines 159-161):
every entry is `fac`, except entry 0 (the `(m = 0, n = 0)` mode, the first
one in the enumeration) which is `fac / 2`. -/
def scl (mboz nboz : ℕ) : ℕ → ℚ :=
  fun k => if k = 0 then fac mboz nboz / 2 else fac mboz nboz

/-- The half-weighting of the poloidal boundary rows inside `boozerfun`
(pybooz.py lines 666-674): rows `k < nv` (theta = 0) and `i <= k < i + nv`
with `i = nv * (nu2 - 1)` (theta = pi) are multiplied by 0.5, every column. -/
def halveBoundary (nv i : ℕ) (tbl : ℕ → ℕ → ℚ) : ℕ → ℕ → ℚ :=
  fun k m => if k < nv ∨ (i ≤ k ∧ k < i + nv) then tbl k m / 2 else tbl k m

/-- Poloidal mode number `m = int(self.xmb[mn])` of a stored Boozer mode
pair (pybooz.py line 679). -/
def boozerModeM (p : ℤ × ℤ) : ℕ := p.1.toNat

/-- Toroidal table index `n = int(abs(self.xnb[mn]) / self.nfp)` of a stored
Boozer mode pair (pybooz.py line 680): absolute value first, then division
by the field-period count (exact, since the stored entry is a multiple of
`nfp`). -/
def boozerModeN (nfp : ℤ) (p : ℤ × ℤ) : ℕ := p.2.natAbs / nfp.natAbs

/-- Sign factor `sgn = np.sign(self.xnb[mn])` (pybooz.py line 681). -/
def boozerModeSgn (p : ℤ × ℤ) : ℚ := (p.2.sign : ℚ)

/-- The mode pair at linear index `mn` of the Boozer enumeration. -/
def xmnbAt (mboz nboz : ℕ) (nfp : ℤ) (mn : ℕ) : ℤ × ℤ :=
  (setup_xmnb mboz nboz nfp).getD mn (0, 0)

/-- The five per-surface mode-amplitude columns accumulated by `boozerfun`
(pybooz.py lines 678-695), before the final normalization. -/
structure BoozerCols where
  bmncb : ℕ → ℚ
  rmncb : ℕ → ℚ
  zmnsb : ℕ → ℚ
  pmnsb : ℕ → ℚ
  gmncb : ℕ → ℚ

/-- The quadrature sums of `boozerfun` (pybooz.py lines 658-695): the trig
tables at the Boozer angles (built by `trigfunc` from `uang`, `vang`; passed
in here as `cosmm` etc.), with the boundary rows half-weighted, are combined
into `cost`/`sint` basis functions weighted by the pointwise Jacobian
`xjac`, and summed against the real-space fields over all `nznt` grid
points. -/
def boozerfunRaw (mboz nboz : ℕ) (nfp : ℤ) (nu2 nv nznt : ℕ)
    (cosmm sinmm cosnn sinnn : ℕ → ℕ → ℚ)
    (bmod_b rad zee vboz xjac : ℕ → ℚ) (jacfac : ℚ) : BoozerCols :=
  let i := nv * (nu2 - 1)
  let cosmmH := halveBoundary nv i cosmm
  let sinmmH := halveBoundary nv i sinmm
  let bbjac := fun k => jacfac / (bmod_b k * bmod_b k)
  let modeAt := xmnbAt mboz nboz nfp
  let cost := fun mn k =>
    (cosmmH k (boozerModeM (modeAt mn)) * cosnn k (boozerModeN nfp (modeAt mn))
      + sinmmH k (boozerModeM (modeAt mn)) * sinnn k (boozerModeN nfp (modeAt mn))
        * boozerModeSgn (modeAt mn)) * xjac k
  let sint := fun mn k =>
    (sinmmH k (boozerModeM (modeAt mn)) * cosnn k (boozerModeN nfp (modeAt mn))
      - cosmmH k (boozerModeM (modeAt mn)) * sinnn k (boozerModeN nfp (modeAt mn))
        * boozerModeSgn (modeAt mn)) * xjac k
  { bmncb := fun mn => ∑ k in Finset.range nznt, bmod_b k * cost mn k
    rmncb := fun mn => ∑ k in Finset.range nznt, rad k * cost mn k
    zmnsb := fun mn => ∑ k in Finset.range nznt, zee k * sint mn k
    pmnsb := fun mn => -∑ k in Finset.range nznt, vboz k * sint mn k
    gmncb := fun mn => ∑ k in Finset.range nznt, bbjac k * cost mn k }

/-- Embedding of `boozerfun`'s output column for surface `jrad` (pybooz.py
lines 636-701): the raw quadrature sums, followed by the in-place elementwise
normalization `self.bmncb[:, jrad] *= self.scl` (lines 697-701) applied to
all five columns. -/
def boozerfun (mboz nboz : ℕ) (nfp : ℤ) (nu2 nv nznt : ℕ)
    (cosmm sinmm cosnn sinnn : ℕ → ℕ → ℚ)
    (bmod_b rad zee vboz xjac : ℕ → ℚ) (jacfac : ℚ) : BoozerCols :=
  let raw := boozerfunRaw mboz nboz nfp nu2 nv nznt cosmm sinmm cosnn sinnn
    bmod_b rad zee vboz xjac jacfac
  { bmncb := fun mn => raw.bmncb mn * scl mboz nboz mn
    rmncb := fun mn => raw.rmncb mn * scl mboz nboz mn
    zmnsb := fun mn => raw.zmnsb mn * scl mboz nboz mn
    pmnsb := fun mn => raw.pmnsb mn * scl mboz nboz mn
    gmncb := fun mn => raw.gmncb mn * scl mboz nboz mn }

/-- C4: the normalization vector satisfies
`scl[k] = 2 / ((nu2_b - 1) * nv_boz)` for every `k >= 1` (in particular it is
constant across those `k`) and `scl[0]` is half that value, and `boozerfun`
multiplies each of its five per-surface mode-amplitude columns elementwise by
this same vector. -/
theorem boozer_scl_spec (mboz nboz : ℕ) (k : ℕ) (hk : 1 ≤ k) (nfp : ℤ)
    (nu2 nv nznt : ℕ) (cosmm sinmm cosnn sinnn : ℕ → ℕ → ℚ)
    (bmod_b rad zee vboz xjac : ℕ → ℚ) (jacfac : ℚ) (mn : ℕ) :
    scl mboz nboz k = 2 / (((nu2_b mboz : ℚ) - 1) * (nv_boz nboz : ℚ)) ∧
    scl mboz nboz 0 = 2 / (((nu2_b mboz : ℚ) - 1) * (nv_boz nboz : ℚ)) / 2 ∧
    (boozerfun mboz nboz nfp nu2 nv nznt cosmm sinmm cosnn sinnn
        bmod_b rad zee vboz xjac jacfac).bmncb mn =
      (boozerfunRaw mboz nboz nfp nu2 nv nznt cosmm sinmm cosnn sinnn
        bmod_b rad zee vboz xjac jacfac).bmncb mn * scl mboz nboz mn ∧
    (boozerfun mboz nboz nfp nu2 nv nznt cosmm sinmm cosnn sinnn
        bmod_b rad zee vboz xjac jacfac).rmncb mn =
      (boozerfunRaw mboz nboz nfp nu2 nv nznt cosmm sinmm cosnn sinnn
        bmod_b rad zee vboz xjac jacfac).rmncb mn * scl mboz nboz mn ∧
    (boozerfun mboz nboz nfp nu2 nv nznt cosmm sinmm cosnn sinnn
        bmod_b rad zee vboz xjac jacfac).zmnsb mn =
      (boozerfunRaw mboz nboz nfp nu2 nv nznt cosmm sinmm cosnn sinnn
        bmod_b rad zee vboz xjac jacfac).zmnsb mn * scl mboz nboz mn ∧
    (boozerfun mboz nboz nfp nu2 nv nznt cosmm sinmm cosnn sinnn
        bmod_b rad zee vboz xjac jacfac).pmnsb mn =
      (boozerfunRaw mboz nboz nfp nu2 nv nznt cosmm sinmm cosnn sinnn
        bmod_b rad zee vboz xjac jacfac).pmnsb mn * scl mboz nboz mn ∧
    (boozerfun mboz nboz nfp nu2 nv nznt cosmm sinmm cosnn sinnn
        bmod_b rad zee vboz xjac jacfac).gmncb mn =
      (boozerfunRaw mboz nboz nfp nu2 nv nznt cosmm sinmm cosnn sinnn
        bmod_b rad zee vboz xjac jacfac).gmncb mn * scl mboz nboz mn := by
  refine ⟨?_, rfl, rfl, rfl, rfl, rfl, rfl⟩
  rw [scl, if_neg (by omega), fac]

/-- Concrete instantiation of `boozer_scl_spec` at `mboz = 1`, `nboz = 1`,
`k = 2`: `scl 2 = 2 / ((4 - 1) * 6) = 1 / 9` and `scl 0 = 1 / 18`. -/
theorem boozer_scl_spec_witness :
    (1 ≤ 2) ∧
    (scl 1 1 2 = 2 / (((nu2_b 1 : ℚ) - 1) * (nv_boz 1 : ℚ)) ∧
      scl 1 1 0 = 2 / (((nu2_b 1 : ℚ) - 1) * (nv_boz 1 : ℚ)) / 2) ∧
    scl 1 1 2 = 1 / 9 := by
  have h := boozer_scl_spec 1 1 2 (by omega) 1 1 1 1 (fun _ _ => 0)
    (fun _ _ => 0) (fun _ _ => 0) (fun _ _ => 0) (fun _ => 0) (fun _ => 0)
    (fun _ => 0) (fun _ => 0) (fun _ => 0) 0 0
  refine ⟨by omega, ⟨h.1, h.2.1⟩, ?_⟩
  rw [h.1]
  norm_num [nu2_b, nu_boz, nv_boz]

/-! ### The constructor's surface loop (pybooz.py lines 217-315) as it acts
on the five output tables -/

/-- Writing one column of an output table: the effect on `self.bmncb` (and
its four siblings) of the assignments `self.bmncb[mn, jrad] = ...` for every
`mn` followed by the in-place scaling of column `jrad` (pybooz.py lines
691-701).  Entries outside column `j` are untouched. -/
def writeColumn (tbl : ℕ → ℕ → ℚ) (j : ℕ) (col : ℕ → ℚ) : ℕ → ℕ → ℚ :=
  fun mn s => if s = j then col mn else tbl mn s

/-- The surface loop `for jrad in range(1, self.ns)` (pybooz.py line 217) as
it acts on one output table: starting from the all-zero table allocated by
`np.zeros([self.mnboz, self.ns])` (lines 139-143), iteration `jrad` writes
column `jrad` with the column `colF jrad` computed by `boozerfun` for that
surface. -/
def surfaceLoop (ns : ℕ) (colF : ℕ → ℕ → ℚ) : ℕ → ℕ → ℚ :=
  (List.range' 1 (ns - 1)).foldl (fun tbl j => writeColumn tbl j (colF j))
    (fun _ _ => 0)

/-- The log of table positions `(mn, jrad)` written by the surface loop:
iteration `jrad` runs over `range(1, ns)` and `boozerfun` writes position
`(mn, jrad)` for every `mn` in `range(mnboz)` (pybooz.py lines 678-701). -/
def writeLog (mnbozN ns : ℕ) : List (ℕ × ℕ) :=
  (List.range' 1 (ns - 1)).flatMap
    (fun j => (List.range mnbozN).map (fun mn => (mn, j)))

theorem foldl_writeColumn_not_mem (L : List ℕ) (colF : ℕ → ℕ → ℚ)
    (tbl : ℕ → ℕ → ℚ) (mn s : ℕ) (hs : s ∉ L) :
    (L.foldl (fun t j => writeColumn t j (colF j)) tbl) mn s = tbl mn s := by
  induction L generalizing tbl with
  | nil => rfl
  | cons a t ih =>
    rw [List.foldl_cons]
    have hsa : s ≠ a := fun h => hs (h ▸ List.mem_cons_self a t)
    rw [ih (writeColumn tbl a (colF a)) (fun h => hs (List.mem_cons_of_mem a h)),
      writeColumn, if_neg hsa]

theorem foldl_writeColumn_mem (L : List ℕ) (colF : ℕ → ℕ → ℚ)
    (tbl : ℕ → ℕ → ℚ) (mn j : ℕ) (hj : j ∈ L) (hnd : L.Nodup) :
    (L.foldl (fun t j => writeColumn t j (colF j)) tbl) mn j = colF j mn := by
  induction L generalizing tbl with
  | nil => cases hj
  | cons a t ih =>
    rw [List.foldl_cons]
    rcases List.mem_cons.mp hj with rfl | hjt
    · rw [foldl_writeColumn_not_mem t colF _ mn j (List.nodup_cons.mp hnd).1,
        writeColumn, if_pos rfl]
    · exact ih _ hjt (List.nodup_cons.mp hnd).2

theorem mem_writeLog {mnbozN ns mn j : ℕ} :
    (mn, j) ∈ writeLog mnbozN ns ↔ (1 ≤ j ∧ j < ns ∧ mn < mnbozN) := by
  rw [writeLog, List.mem_flatMap]
  constructor
  · rintro ⟨a, ha, hmem⟩
    rw [List.mem_map] at hmem
    obtain ⟨b, hb, hba⟩ := hmem
    obtain ⟨rfl, rfl⟩ : b = mn ∧ a = j := by
      exact ⟨congrArg Prod.fst hba, congrArg Prod.snd hba⟩
    rw [List.mem_range'_1] at ha
    rw [List.mem_range] at hb
    refine ⟨ha.1, by omega, hb⟩
  · rintro ⟨h1, h2, h3⟩
    refine ⟨j, ?_, ?_⟩
    · rw [List.mem_range'_1]
      omega
    · rw [List.mem_map]
      exact ⟨mn, List.mem_range.mpr h3, rfl⟩

theorem writeLog_nodup (mnbozN ns : ℕ) : (writeLog mnbozN ns).Nodup := by
  rw [writeLog, List.nodup_flatMap]
  constructor
  · intro j hj
    exact (List.nodup_range mnbozN).map
      (fun a b hab => congrArg Prod.fst hab)
  · refine (List.nodup_range' 1 (ns - 1)).imp ?_
    intro a b hab
    simp only [Function.onFun]
    rw [List.disjoint_right]
    rintro ⟨mn, j⟩ hmem hmem2
    rw [List.mem_map] at hmem hmem2
    obtain ⟨m1, _, h1⟩ := hmem
    obtain ⟨m2, _, h2⟩ := hmem2
    have := congrArg Prod.snd h1
    have := congrArg Prod.snd h2
    simp_all

/-- C6: throughout the constructor's surface loop, column 0 (the
magnetic-axis surface) of an output table is never written and keeps its
initial zero value, and for every `jrad` in `1 .. ns - 1` column `jrad`
holds exactly the column computed by `boozerfun` during iteration `jrad`;
the write log records each position of column `jrad` exactly once (it is
duplicate-free, contains `(mn, jrad)`, and never contains `(mn, 0)`). -/
theorem surface_loop_frame (ns mnbozN : ℕ) (colF : ℕ → ℕ → ℚ) (mn j : ℕ)
    (h1 : 1 ≤ j) (h2 : j < ns) (hmn : mn < mnbozN) :
    surfaceLoop ns colF mn 0 = 0 ∧
    surfaceLoop ns colF mn j = colF j mn ∧
    (mn, 0) ∉ writeLog mnbozN ns ∧
    (mn, j) ∈ writeLog mnbozN ns ∧
    (writeLog mnbozN ns).Nodup := by
  refine ⟨?_, ?_, ?_, ?_, writeLog_nodup mnbozN ns⟩
  · exact foldl_writeColumn_not_mem _ colF _ mn 0
      (fun h => by simpa using (List.mem_range'_1.mp h).1)
  · exact foldl_writeColumn_mem _ colF _ mn j
      (List.mem_range'_1.mpr (by omega)) (List.nodup_range' 1 (ns - 1))
  · intro h
    exact absurd (mem_writeLog.mp h).1 (by omega)
  · exact mem_writeLog.mpr ⟨h1, by omega, hmn⟩

/-- Concrete instantiation of `surface_loop_frame` at `ns = 3`,
`mnboz = 2`, `j = 2`, `mn = 1`, with column function `colF j mn = j + mn`. -/
theorem surface_loop_frame_witness :
    (1 ≤ 2 ∧ 2 < 3 ∧ 1 < 2) ∧
    (surfaceLoop 3 (fun j mn => (j : ℚ) + mn) 1 0 = 0 ∧
      surfaceLoop 3 (fun j mn => (j : ℚ) + mn) 1 2 = (2 : ℚ) + 1 ∧
      (1, 0) ∉ writeLog 2 3 ∧
      (1, 2) ∈ writeLog 2 3 ∧
      (writeLog 2 3).Nodup) :=
  ⟨⟨by omega, by omega, by omega⟩,
    surface_loop_frame 3 2 (fun j mn => (j : ℚ) + mn) 1 2
      (by omega) (by omega) (by omega)⟩

/-! ### Real-space synthesis (`vcoords_rz`, pybooz.py lines 416-505) -/

/-- Slice bounds `self.ntorsum = (nboz + 1, 3 * nboz + 2)` (pybooz.py line 168), the
slice bounds used by the axis correction.  The code comment at lines 166-167
notes these are meant to be the indices of all modes with `m = 1` and flags
the stored value as wrong. -/
def ntorsum (nboz : ℕ) : ℕ × ℕ := (nboz + 1, 3 * nboz + 2)

/-- The in-place axis correction of `vcoords_rz` (pybooz.py lines 465-474):
row 0 of an amplitude table is overwritten, at the slice
`ntorsum[0] : ntorsum[1]`, with the extrapolation
`2 * tbl[1, mn] / sfull[1] - tbl[2, mn] / sfull[2]`; every other entry is
left unchanged. -/
def axisCorrect (nboz : ℕ) (sfull : ℕ → ℚ) (tbl : ℕ → ℕ → ℚ) : ℕ → ℕ → ℚ :=
  fun s mn =>
    if s = 0 ∧ (ntorsum nboz).1 ≤ mn ∧ mn < (ntorsum nboz).2 then
      2 * tbl 1 mn / sfull 1 - tbl 2 mn / sfull 2
    else tbl s mn

/-- The read-only VMEC context used by `vcoords_rz`: field-period count,
native mode count and mode-number arrays, the lambda amplitude table, the
square-root flux array `sfull`, `nboz` (through `ntorsum`), and the four
native-resolution trig tables `cosm_b` etc. built at setup
(pybooz.py lines 197-203). -/
structure VmecCtx where
  nfp : ℤ
  mnmax : ℕ
  xm : ℕ → ℤ
  xn : ℕ → ℤ
  lmns : ℕ → ℕ → ℚ
  sfull : ℕ → ℚ
  nboz : ℕ
  cosm : ℕ → ℕ → ℚ
  sinm : ℕ → ℕ → ℚ
  cosn : ℕ → ℕ → ℚ
  sinn : ℕ → ℕ → ℚ

/-- The basis function `tcos` of `vcoords_rz` at native mode `mn` and grid
point `k` (pybooz.py lines 485-488): `m = int(xm[mn])`,
`n = int(abs(xn[mn] / nfp))` (exact, since `xn` holds multiples of `nfp`),
`sgn = sign(xn[mn])`. -/
def tcosB (c : VmecCtx) (mn k : ℕ) : ℚ :=
  c.cosm k (c.xm mn).toNat * c.cosn k ((c.xn mn).natAbs / c.nfp.natAbs)
    + c.sinm k (c.xm mn).toNat * c.sinn k ((c.xn mn).natAbs / c.nfp.natAbs)
      * ((c.xn mn).sign : ℚ)

/-- The basis function `tsin` of `vcoords_rz` (pybooz.py lines 489-492). -/
def tsinB (c : VmecCtx) (mn k : ℕ) : ℚ :=
  c.sinm k (c.xm mn).toNat * c.cosn k ((c.xn mn).natAbs / c.nfp.natAbs)
    - c.cosm k (c.xm mn).toNat * c.sinn k ((c.xn mn).natAbs / c.nfp.natAbs)
      * ((c.xn mn).sign : ℚ)

/-- Result record of `vcoords_rz`: the rebuilt real-space fields `r`, `z`,
the accumulators `lt`, `lz`, `lam`, and the (possibly axis-corrected)
amplitude tables, modelling the in-place mutation of `self.rmnc` /
`self.zmns` as returned values. -/
structure VcoordsResult where
  r : ℕ → ℚ
  z : ℕ → ℚ
  lt : ℕ → ℚ
  lz : ℕ → ℚ
  lam : ℕ → ℚ
  rmnc : ℕ → ℕ → ℚ
  zmns : ℕ → ℕ → ℚ

/-- The body of `vcoords_rz` after the `js <= 0` guard (pybooz.py lines
446-505).  `r` and `z` are rebuilt from zero in every call (lines 446-447);
`lt`, `lz`, `lam` are zeroed only on the `nparity == 0` path (lines 451-453)
and otherwise accumulate onto the values passed in; the weights `t1`, `t2`
follow the parity / surface-index branches (lines 448-459) and are halved at
lines 476-477; on the `nparity != 0`, `js == 1` branch the amplitude tables
are axis-corrected in place (lines 460-474) before the mode loop reads them.
The mode loop (lines 479-505) sums over the native modes whose poloidal
parity matches `nparity`; the per-mode accumulations are pure additions, so
the loop is modelled by sums over the filtered mode set. -/
def vcoordsCore (c : VmecCtx) (rmnc zmns : ℕ → ℕ → ℚ) (jrad : ℕ)
    (lt lz lam : ℕ → ℚ) (nparity : ℕ) : VcoordsResult :=
  let js := jrad
  let js1 := js - 1
  let t1 : ℚ :=
    (if nparity = 0 then 1 else
      if 1 < js then 1 / c.sfull js else 1 / c.sfull 1) / 2
  let t2 : ℚ :=
    (if nparity = 0 then 1 else
      if 1 < js then 1 / c.sfull js1 else 1) / 2
  let lt0 := if nparity = 0 then (fun _ => (0 : ℚ)) else lt
  let lz0 := if nparity = 0 then (fun _ => (0 : ℚ)) else lz
  let lam0 := if nparity = 0 then (fun _ => (0 : ℚ)) else lam
  let rmnc1 :=
    if nparity = 0 then rmnc else
      if 1 < js then rmnc else axisCorrect c.nboz c.sfull rmnc
  let zmns1 :=
    if nparity = 0 then zmns else
      if 1 < js then zmns else axisCorrect c.nboz c.sfull zmns
  let modes := (Finset.range c.mnmax).filter (fun mn => c.xm mn % 2 = (nparity : ℤ))
  { r := fun k => ∑ mn in modes,
      tcosB c mn k * (t1 * rmnc1 js mn + t2 * rmnc1 js1 mn)
    z := fun k => ∑ mn in modes,
      tsinB c mn k * (t1 * zmns1 js mn + t2 * zmns1 js1 mn)
    lt := fun k => lt0 k + ∑ mn in modes,
      tcosB c mn k * c.lmns js mn * ((c.xm mn : ℚ))
    lz := fun k => lz0 k - ∑ mn in modes,
      tcosB c mn k * c.lmns js mn * ((c.xn mn : ℚ))
    lam := fun k => lam0 k + ∑ mn in modes,
      tsinB c mn k * c.lmns js mn
    rmnc := rmnc1
    zmns := zmns1 }

/-- Embedding of `vcoords_rz` (pybooz.py lines 416-505): the `js <= 0` guard
at lines 443-445 returns early (Python returns `None`), modelled by
`Option`. -/
def vcoords_rz (c : VmecCtx) (rmnc zmns : ℕ → ℕ → ℚ) (jrad : ℕ)
    (lt lz lam : ℕ → ℚ) (nparity : ℕ) : Option VcoordsResult :=
  if jrad = 0 then none
  else some (vcoordsCore c rmnc zmns jrad lt lz lam nparity)

/-- The constructor's back-to-back calls for one surface (pybooz.py lines
247-251): first `nparity=0` (into `r1`, `z1`), then `nparity=1` (into
`rodd`, `zodd`), threading the same `lt`, `lz`, `lam` arrays and the
(possibly mutated) amplitude tables through both calls. -/
def vcoordsPair (c : VmecCtx) (rmnc zmns : ℕ → ℕ → ℚ) (jrad : ℕ)
    (lt lz lam : ℕ → ℚ) : Option VcoordsResult :=
  match vcoords_rz c rmnc zmns jrad lt lz lam 0 with
  | none => none
  | some r0 => vcoords_rz c r0.rmnc r0.zmns jrad r0.lt r0.lz r0.lam 1

theorem parity_filter_split (c : VmecCtx) (g : ℕ → ℚ) :
    (∑ mn in (Finset.range c.mnmax).filter (fun mn => c.xm mn % 2 = (0 : ℤ)),
        g mn) +
      (∑ mn in (Finset.range c.mnmax).filter (fun mn => c.xm mn % 2 = (1 : ℤ)),
        g mn) =
    ∑ mn in Finset.range c.mnmax, g mn := by
  rw [← Finset.sum_filter_add_sum_filter_not (Finset.range c.mnmax)
    (fun mn => c.xm mn % 2 = (0 : ℤ)) g]
  congr 1
  apply Finset.sum_congr _ (fun _ _ => rfl)
  apply Finset.filter_congr
  intro mn _
  constructor
  · intro h
    omega
  · intro h
    omega

/-- C10: `vcoords_rz` zeroes `lt`, `lz`, `lam` only on the `nparity = 0`
path, and a `nparity = 1` call adds the odd-parity contributions onto the
values already held; after the constructor's back-to-back `nparity = 0` then
`nparity = 1` calls for a surface, `lt`, `lz`, `lam` hold the sums over all
native modes of both parities, while `r` is rebuilt within the second call
and holds only the odd-parity contributions (read from the possibly
axis-corrected table the call returns). -/
theorem vcoords_parity_accumulation (c : VmecCtx) (rmnc zmns : ℕ → ℕ → ℚ)
    (jrad : ℕ) (lt lz lam : ℕ → ℚ) (res : VcoordsResult) (k : ℕ)
    (hj : 1 ≤ jrad)
    (hres : vcoordsPair c rmnc zmns jrad lt lz lam = some res) :
    res.lt k = ∑ mn in Finset.range c.mnmax,
      tcosB c mn k * c.lmns jrad mn * ((c.xm mn : ℚ)) ∧
    res.lz k = -∑ mn in Finset.range c.mnmax,
      tcosB c mn k * c.lmns jrad mn * ((c.xn mn : ℚ)) ∧
    res.lam k = ∑ mn in Finset.range c.mnmax,
      tsinB c mn k * c.lmns jrad mn ∧
    res.r k = ∑ mn in (Finset.range c.mnmax).filter
        (fun mn => c.xm mn % 2 = (1 : ℤ)),
      tcosB c mn k *
        (((if 1 < jrad then 1 / c.sfull jrad else 1 / c.sfull 1) / 2) *
            res.rmnc jrad mn +
          ((if 1 < jrad then 1 / c.sfull (jrad - 1) else 1) / 2) *
            res.rmnc (jrad - 1) mn) := by
  have hj0 : jrad ≠ 0 := by omega
  simp only [vcoordsPair, vcoords_rz, if_neg hj0] at hres
  have hres2 := Option.some.inj hres
  subst hres2
  refine ⟨?_, ?_, ?_, ?_⟩ <;>
    simp only [vcoordsCore, one_ne_zero, eq_self_iff_true, if_true, if_false,
      Nat.cast_zero, Nat.cast_one, zero_add, zero_sub]
  · exact parity_filter_split c _
  · rw [← parity_filter_split c
      (fun mn => tcosB c mn k * c.lmns jrad mn * ((c.xn mn : ℚ)))]
    ring
  · exact parity_filter_split c _

/-- A zero-filled grid array (model of the scratch arrays passed into the
constructor's calls; their incoming values are irrelevant for `nparity = 0`
and are validated by the theorems for `nparity = 1`). -/
def zeroField : ℕ → ℚ := fun _ => 0

/-- Small concrete context for witnesses: two native modes `(m, n) = (0, 0)`
and `(1, 0)`, all amplitudes and trig-table entries 1. -/
def ctxW : VmecCtx where
  nfp := 1
  mnmax := 2
  xm := fun mn => if mn = 1 then 1 else 0
  xn := fun _ => 0
  lmns := fun _ _ => 1
  sfull := fun _ => 1
  nboz := 0
  cosm := fun _ _ => 1
  sinm := fun _ _ => 1
  cosn := fun _ _ => 1
  sinn := fun _ _ => 1

/-- All-ones amplitude table for witnesses. -/
def tblW : ℕ → ℕ → ℚ := fun _ _ => 1

/-- The result of the constructor's two back-to-back `vcoords_rz` calls on
the witness data at surface 1. -/
def resW : VcoordsResult :=
  vcoordsCore ctxW (vcoordsCore ctxW tblW tblW 1 zeroField zeroField zeroField 0).rmnc
    (vcoordsCore ctxW tblW tblW 1 zeroField zeroField zeroField 0).zmns 1
    (vcoordsCore ctxW tblW tblW 1 zeroField zeroField zeroField 0).lt
    (vcoordsCore ctxW tblW tblW 1 zeroField zeroField zeroField 0).lz
    (vcoordsCore ctxW tblW tblW 1 zeroField zeroField zeroField 0).lam 1

/-- Concrete instantiation of `vcoords_parity_accumulation` on the witness
data, with the resulting `lt` evaluated: the even mode contributes 0 and the
odd mode 1, so the accumulated `lt` is 1. -/
theorem vcoords_parity_accumulation_witness :
    ((1 ≤ 1) ∧
      vcoordsPair ctxW tblW tblW 1 zeroField zeroField zeroField = some resW) ∧
    (resW.lt 0 = ∑ mn in Finset.range ctxW.mnmax,
        tcosB ctxW mn 0 * ctxW.lmns 1 mn * ((ctxW.xm mn : ℚ)) ∧
      resW.lz 0 = -∑ mn in Finset.range ctxW.mnmax,
        tcosB ctxW mn 0 * ctxW.lmns 1 mn * ((ctxW.xn mn : ℚ)) ∧
      resW.lam 0 = ∑ mn in Finset.range ctxW.mnmax,
        tsinB ctxW mn 0 * ctxW.lmns 1 mn ∧
      resW.r 0 = ∑ mn in (Finset.range ctxW.mnmax).filter
          (fun mn => ctxW.xm mn % 2 = (1 : ℤ)),
        tcosB ctxW mn 0 *
          (((if 1 < 1 then 1 / ctxW.sfull 1 else 1 / ctxW.sfull 1) / 2) *
              resW.rmnc 1 mn +
            ((if 1 < 1 then 1 / ctxW.sfull (1 - 1) else 1) / 2) *
              resW.rmnc (1 - 1) mn)) ∧
    resW.lt 0 = 1 :=
  ⟨⟨le_refl 1, rfl⟩,
    vcoords_parity_accumulation ctxW tblW tblW 1 zeroField zeroField zeroField
      resW 0 (le_refl 1) rfl,
    by norm_num [resW, vcoordsCore, ctxW, tblW, zeroField, tcosB,
      Finset.sum_filter, Finset.sum_range_succ]⟩

/-- Concrete context exhibiting the axis-correction indexing bug: native
modes `(m, n) = (0, 0), (0, 1), (1, 0)` (a VMEC layout with `ntor = 1`),
while `nboz = 0`, so `ntorsum = (1, 2)` selects native index 1 (an `m = 0`
mode) instead of index 2 (the `m = 1` mode). -/
def ctxBug : VmecCtx where
  nfp := 1
  mnmax := 3
  xm := fun mn => if mn = 2 then 1 else 0
  xn := fun mn => if mn = 1 then 1 else 0
  lmns := fun _ _ => 0
  sfull := fun _ => 1
  nboz := 0
  cosm := fun _ _ => 0
  sinm := fun _ _ => 0
  cosn := fun _ _ => 0
  sinn := fun _ _ => 0

/-- Amplitude table for the axis-correction bug: 1 at surface 1, mode 1,
zero elsewhere. -/
def rmncBug : ℕ → ℕ → ℚ := fun s mn => if s = 1 ∧ mn = 1 then 1 else 0

/-- C5: evaluation of `vcoords_rz` at `jrad = 1`, `nparity = 1` on `ctxBug`.
The call overwrites row 0 of the amplitude table at native index 1, whose
poloidal mode number is `m = 0` (the entry changes from 0 to
`2 * rmnc[1, 1] / sfull[1] - rmnc[2, 1] / sfull[2] = 2`), and leaves native
index 2 — the only `m = 1` native mode — unchanged: the mutated slice is
`ntorsum = (nboz + 1, 3 * nboz + 2)`, indices of the *Boozer* `m = 1` modes,
not of the native `m = 1` modes (the code's own comment at pybooz.py lines
166-167 flags this: "Fix: this is wrong!"). -/
theorem vcoords_axis_correction_bug :
    ctxBug.xm 1 = 0 ∧ ctxBug.xm 2 = 1 ∧ rmncBug 0 1 = 0 ∧ rmncBug 0 2 = 0 ∧
    (vcoords_rz ctxBug rmncBug rmncBug 1 zeroField zeroField zeroField 1).map
      (fun res => res.rmnc 0 1) = some 2 ∧
    (vcoords_rz ctxBug rmncBug rmncBug 1 zeroField zeroField zeroField 1).map
      (fun res => res.rmnc 0 2) = some 0 := by
  refine ⟨rfl, rfl, rfl, rfl, ?_, ?_⟩ <;>
    norm_num [vcoords_rz, vcoordsCore, axisCorrect, ntorsum, ctxBug, rmncBug]

/-! ### Four-corner field-strength sampling (`modbooz`, pybooz.py lines
709-778) -/

/-- The toroidal table index actually used by `modbooz` (pybooz.py line 766
and the lookups at lines 768-769): `n = int(self.xnb[mn]) // self.nfp` is a
Python floor division, which for the stored multiples of `nfp` yields the
signed toroidal mode number; a *negative* `n` then indexes the length-
`(nboz + 1)` numpy arrays `cosnn`/`sinnn` with numpy wraparound semantics,
reading column `nboz + 1 + n` instead of column `|n|` (contrast `boozerfun`,
which takes the absolute value at line 680). -/
def modboozIdx (nboz : ℕ) (n : ℤ) : ℕ :=
  if 0 ≤ n then n.toNat else ((nboz : ℤ) + 1 + n).toNat

/-- One term of `modbooz`'s accumulation at a stored mode pair `p` (pybooz.py
lines 764-772), for one angle pair: `cu, su` are `cosmm[1], sinmm[1]`
(cosine and sine of `u_b[angles]`, lines 735-736) and `cv, sv` are
`cosnn[1], sinnn[1]` (cosine and sine of `v_b[angles] * nfp`, lines
741-742); higher harmonics come from the same angle-addition recurrence as
`trigfunc` (lines 744-762), modelled by `trigCol`. -/
def modboozTerm {R : Type} [CommRing R] (nboz : ℕ) (nfp : ℤ) (cu su cv sv : R)
    (p : ℤ × ℤ) : R :=
  (trigCol cu su p.1.toNat).1 * (trigCol cv sv (modboozIdx nboz (p.2.fdiv nfp))).1
    + (trigCol cu su p.1.toNat).2 *
      (trigCol cv sv (modboozIdx nboz (p.2.fdiv nfp))).2 * ((p.2.sign : ℤ) : R)

/-- Embedding of one entry `bmod[angles]` of `modbooz` (pybooz.py lines
709-778): the sum over all `mnboz` Boozer modes of
`bmnc[mn] * cost(mode mn)`, with the mode pairs read from the arrays filled
by `setup_xmnb`. -/
def modbooz {R : Type} [CommRing R] (mboz nboz : ℕ) (nfp : ℤ) (bmnc : ℕ → R)
    (cu su cv sv : R) : R :=
  ∑ mn in Finset.range (mnboz mboz nboz),
    bmnc mn * modboozTerm nboz nfp cu su cv sv (xmnbAt mboz nboz nfp mn)

/-- Amplitude vector that isolates the Boozer mode with linear index 4: for
`mboz = 2`, `nboz = 2`, `nfp = 1` this is the mode `(m, n) = (1, -1)`. -/
def bmncBug {R : Type} [Zero R] [One R] : ℕ → R :=
  fun mn => if mn = 4 then 1 else 0

/-- C9: `modbooz` does *not* evaluate the field-strength Boozer series for
mode sets containing a negative toroidal mode number.  At `mboz = 2`,
`nboz = 2`, `nfp = 1`, with amplitude 1 on the single mode
`(m, n) = (1, -1)` (linear index 4) and the angle pair `u = v = arccos(3/5)`
(so `cos = 3/5`, `sin = 4/5`), `modbooz` returns `-117/125` — it reads the
wrapped toroidal column `nboz + 1 + n = 2`, i.e. the second harmonic —
while the Boozer series `sum bmncb[mn] * cos(xmb[mn]*u - xnb[mn]*v)` of the
claim evaluates to `cos(u + v) = -7/25`. -/
theorem modbooz_negative_mode_bug :
    xmnbAt 2 2 1 4 = (1, -1) ∧
    modbooz 2 2 1 bmncBug (Real.cos (Real.arccos (3 / 5)))
      (Real.sin (Real.arccos (3 / 5))) (Real.cos (Real.arccos (3 / 5)))
      (Real.sin (Real.arccos (3 / 5))) = -117 / 125 ∧
    (∑ mn in Finset.range (mnboz 2 2),
      bmncBug mn * Real.cos (((xmnbAt 2 2 1 mn).1 : ℝ) * Real.arccos (3 / 5)
        - ((xmnbAt 2 2 1 mn).2 : ℝ) * Real.arccos (3 / 5))) = -7 / 25 ∧
    modbooz 2 2 1 bmncBug (Real.cos (Real.arccos (3 / 5)))
      (Real.sin (Real.arccos (3 / 5))) (Real.cos (Real.arccos (3 / 5)))
      (Real.sin (Real.arccos (3 / 5))) ≠
      ∑ mn in Finset.range (mnboz 2 2),
        bmncBug mn * Real.cos (((xmnbAt 2 2 1 mn).1 : ℝ) * Real.arccos (3 / 5)
          - ((xmnbAt 2 2 1 mn).2 : ℝ) * Real.arccos (3 / 5)) := by
  have hmode : xmnbAt 2 2 1 4 = (1, -1) := by decide
  have hcos : Real.cos (Real.arccos (3 / 5)) = 3 / 5 :=
    Real.cos_arccos (by norm_num) (by norm_num)
  have hsin : Real.sin (Real.arccos (3 / 5)) = 4 / 5 := by
    rw [Real.sin_arccos]
    rw [show (1 - (3 / 5 : ℝ) ^ 2) = (4 / 5) ^ 2 by norm_num,
      Real.sqrt_sq (by norm_num)]
  have hb : modbooz 2 2 1 bmncBug (Real.cos (Real.arccos (3 / 5)))
      (Real.sin (Real.arccos (3 / 5))) (Real.cos (Real.arccos (3 / 5)))
      (Real.sin (Real.arccos (3 / 5))) = -117 / 125 := by
    rw [modbooz, Finset.sum_eq_single_of_mem 4 (by decide)
      (fun b _ hb4 => by simp [bmncBug, hb4])]
    rw [hmode]
    have hterm : modboozTerm 2 1 (Real.cos (Real.arccos (3 / 5)))
        (Real.sin (Real.arccos (3 / 5))) (Real.cos (Real.arccos (3 / 5)))
        (Real.sin (Real.arccos (3 / 5))) ((1 : ℤ), (-1 : ℤ)) =
        Real.cos (Real.arccos (3 / 5)) *
            (Real.cos (Real.arccos (3 / 5)) * Real.cos (Real.arccos (3 / 5)) -
              Real.sin (Real.arccos (3 / 5)) * Real.sin (Real.arccos (3 / 5))) +
          Real.sin (Real.arccos (3 / 5)) *
            (Real.sin (Real.arccos (3 / 5)) * Real.cos (Real.arccos (3 / 5)) +
              Real.cos (Real.arccos (3 / 5)) * Real.sin (Real.arccos (3 / 5))) *
            (((-1 : ℤ) : ℝ)) := rfl
    rw [hterm, hcos, hsin, bmncBug]
    norm_num
  have hs : (∑ mn in Finset.range (mnboz 2 2),
      bmncBug mn * Real.cos (((xmnbAt 2 2 1 mn).1 : ℝ) * Real.arccos (3 / 5)
        - ((xmnbAt 2 2 1 mn).2 : ℝ) * Real.arccos (3 / 5))) = -7 / 25 := by
    rw [Finset.sum_eq_single_of_mem 4 (by decide)
      (fun b _ hb4 => by simp [bmncBug, hb4])]
    rw [hmode]
    show bmncBug 4 * Real.cos ((((1 : ℤ), (-1 : ℤ)).1 : ℝ) * Real.arccos (3 / 5)
      - ((((1 : ℤ), (-1 : ℤ)).2 : ℝ)) * Real.arccos (3 / 5)) = -7 / 25
    have h4 : (bmncBug 4 : ℝ) = 1 := rfl
    rw [h4, one_mul,
      show (((1 : ℤ), (-1 : ℤ)).1 : ℝ) * Real.arccos (3 / 5) -
          ((((1 : ℤ), (-1 : ℤ)).2 : ℝ)) * Real.arccos (3 / 5) =
          2 * Real.arccos (3 / 5) by push_cast; ring,
      Real.cos_two_mul, hcos]
    norm_num
  refine ⟨hmode, hb, hs, ?_⟩
  rw [hb, hs]
  norm_num

end Pybooz
